import Mathlib

/-
Verification of the model download module (bfrvc/unit/tools/model_download.py).

Strings are modelled as lists of characters.  The Python substring operations
used by the module (the in operator, str.split, str.replace, str.endswith and
the one regular expression search) all scan for the leftmost occurrence of a
nonempty separator, so they are modelled on top of a single leftmost
occurrence splitter, findSplit.  The filesystem is modelled as a list of named
entries (regular files and directories with nested contents); the staging
directory is a list of file names.  Network and archive effects are modelled
by small environment types enumerating the possible outcomes of each external
call, so that the try/except structure of the module becomes explicit.
-/

namespace ModelDownload

/-- Character list of a string literal; every source string is modelled as a
list of characters. -/
def str (s : String) : List Char := s.data

/-- Boolean test that pat is a leading segment of s; models the position test
used by Python substring scanning. -/
def startsWith : List Char → List Char → Bool
  | [], _ => true
  | _ :: _, [] => false
  | a :: as, b :: bs => decide (a = b) && startsWith as bs

/-- Splits s at the leftmost occurrence of sep, returning the text before and
after that occurrence, or none when sep does not occur in s.  This models the
left to right scan performed by the Python operations split, replace and the
in operator, for a nonempty sep. -/
def findSplit (sep : List Char) : List Char → Option (List Char × List Char)
  | [] => none
  | c :: rest =>
    if startsWith sep (c :: rest) then some ([], List.drop (sep.length - 1) rest)
    else
      match findSplit sep rest with
      | some (pre, post) => some (c :: pre, post)
      | none => none

/-- Models the Python expression sep in s, for nonempty sep. -/
def containsSubstr (sep s : List Char) : Bool := (findSplit sep s).isSome

/-- Text before the first occurrence of sep, or all of s when sep does not
occur; models taking piece zero of a Python split. -/
def takeUntil (sep s : List Char) : List Char :=
  match findSplit sep s with
  | some (pre, _) => pre
  | none => s

/-- Text after the first occurrence of sep, or all of s when sep does not
occur; models the remainder that a Python split keeps scanning.  Only used
under a containment guard. -/
def afterFirst (sep s : List Char) : List Char :=
  match findSplit sep s with
  | some (_, post) => post
  | none => s

/-- Fuel driven replacement of every non overlapping occurrence of sep by rep,
scanning left to right; any fuel at least the length of the input makes it
total. -/
def replaceAllFuel (sep rep : List Char) : Nat → List Char → List Char
  | 0, l => l
  | Nat.succ n, l =>
    match findSplit sep l with
    | none => l
    | some (pre, post) => pre ++ rep ++ replaceAllFuel sep rep n post

/-- Models the Python expression s.replace(sep, rep) for nonempty sep: every
non overlapping occurrence is replaced, scanning left to right. -/
def replaceAll (sep rep s : List Char) : List Char := replaceAllFuel sep rep s.length s

/-! String constants used by the module. -/

def fileDL : List Char := str "file/d/"

def idEqL : List Char := str "id="

def slashL : List Char := str "/"

def ampL : List Char := str "&"

def driveL : List Char := str "drive.google.com"

def blobL : List Char := str "/blob/"

def resolveL : List Char := str "/resolve/"

def treeMainL : List Char := str "/tree/main"

def downloadedL : List Char := str "downloaded"

/-- Models the Python expression url.split(sep)[1]: the text strictly between
the first occurrence of sep and the next non overlapping occurrence of sep
(or the end of the string).  Only used under a containment guard, so the
unreachable none branch returns the empty piece. -/
def pySplitSecond (sep url : List Char) : List Char := takeUntil sep (afterFirst sep url)

/-- Embedding of extract_google_drive_id: when the url contains file/d/ it
returns url.split(file/d/)[1].split(/)[0]; otherwise when it contains id= it
returns url.split(id=)[1].split(amp)[0]; otherwise none. -/
def extract_google_drive_id (url : List Char) : Option (List Char) :=
  if containsSubstr fileDL url then some (takeUntil slashL (pySplitSecond fileDL url))
  else if containsSubstr idEqL url then some (takeUntil ampL (pySplitSecond idEqL url))
  else none

/-- Modelled from the spec wording of the identifier extraction, for comparison
with the code: the identifier is the substring between the first occurrence of
file/d/ and the next slash (respectively between id= and the next ampersand),
with no truncation at a later repetition of the pattern. -/
def specDriveId (url : List Char) : Option (List Char) :=
  if containsSubstr fileDL url then some (takeUntil slashL (afterFirst fileDL url))
  else if containsSubstr idEqL url then some (takeUntil ampL (afterFirst idEqL url))
  else none

/-- Embedding of the url rewriting done by download_blob_or_resolve: Python
url.replace, which substitutes every non overlapping occurrence of /blob/ by
/resolve/, guarded by the containment test of the source. -/
def blob_or_resolve_rewrite (url : List Char) : List Char :=
  if containsSubstr blobL url then replaceAll blobL resolveL url else url

/-! Stream to file and the generic download strategy. -/

def patL : List Char := str "filename=\""

def quoteL : List Char := str "\""

def osSepL : List Char := str "/"

def underscoreL : List Char := str "_"

/-- Value of a hexadecimal digit, or none. -/
def hexVal (c : Char) : Option Nat :=
  if '0' ≤ c ∧ c ≤ '9' then some (c.toNat - '0'.toNat)
  else if 'a' ≤ c ∧ c ≤ 'f' then some (c.toNat - 'a'.toNat + 10)
  else if 'A' ≤ c ∧ c ≤ 'F' then some (c.toNat - 'A'.toNat + 10)
  else none

/-- Models urllib unquote on the percent escapes this module meets: a percent
sign followed by two hexadecimal digits decodes to the character with that
code, all other text is kept unchanged.  Multi byte utf-8 escape sequences
above code 127 are an external library concern outside this model; the
theorems below only rely on single byte escapes. -/
def unquoteChars : List Char → List Char
  | '%' :: a :: b :: rest =>
    (match hexVal a, hexVal b with
     | some ha, some hb => Char.ofNat (16 * ha + hb) :: unquoteChars rest
     | _, _ => '%' :: unquoteChars (a :: b :: rest))
  | c :: rest => c :: unquoteChars rest
  | [] => []

/-- Models the regular expression search for a quoted filename: the leftmost
position where the pattern text occurs followed by a nonempty quote free group
closed by a quote; a position where the pattern occurs but no such group
follows is skipped and the scan continues, as the regex engine does. -/
def findFilename : List Char → Option (List Char)
  | [] => none
  | c :: rest =>
    if startsWith patL (c :: rest) then
      (match findSplit quoteL (List.drop patL.length (c :: rest)) with
       | some (grp, _) => if grp = [] then findFilename rest else some grp
       | none => findFilename rest)
    else findFilename rest

/-- Embedding of the file name derivation of save_response_content: the header
value is first percent decoded (urllib unquote), then searched for a quoted
filename; on a match every path separator in the group is replaced by an
underscore, otherwise the fixed placeholder name is used.  An absent header is
modelled by the empty string, as in the source dict get default. -/
def savedFileName (header : List Char) : List Char :=
  match findFilename (unquoteChars header) with
  | some grp => replaceAll osSepL underscoreL grp
  | none => str "downloaded_file"

/-- Modelled from the spec wording of the file name derivation, for comparison
with the code: the quoted filename pattern is matched against the raw header
value, without the percent decoding step the source applies first. -/
def specSavedFileName (header : List Char) : List Char :=
  match findFilename header with
  | some grp => replaceAll osSepL underscoreL grp
  | none => str "downloaded_file"

structure HttpResponse where
  status : Nat
  contentDisposition : List Char

/-- Models the write performed by save_response_content: the derived file name
is added to the staging directory, modelled as the list of file names it
contains. -/
def save_response_content (resp : HttpResponse) (staging : List (List Char)) :
    List (List Char) :=
  savedFileName resp.contentDisposition :: staging

inductive PyError where
  | downloadError (status : Nat)
  | otherError
deriving DecidableEq

/-- Embedding of download_file: on status 200 the response body is streamed to
the staging directory, otherwise a download error carrying the observed status
is raised (second component some) and the staging directory is untouched. -/
def download_file (resp : HttpResponse) (staging : List (List Char)) :
    List (List Char) × Option PyError :=
  if resp.status = 200 then (save_response_content resp staging, none)
  else (staging, some (PyError.downloadError resp.status))

/-- Embedding of download_blob_or_resolve: the url is rewritten (first
component: the url actually requested), then the response is handled exactly
as in download_file. -/
def download_blob_or_resolve (url : List Char) (resp : HttpResponse)
    (staging : List (List Char)) :
    List Char × (List (List Char) × Option PyError) :=
  (blob_or_resolve_rewrite url, download_file resp staging)

/-! The top level fetch pipeline. -/

/-- Outcome environment for download_from_url: for each external step, none
means the step succeeds and some e means it raises e. -/
structure FetchEnv where
  gdownErr : Option PyError
  blobErr : Option PyError
  hfErr : Option PyError
  genericErr : Option PyError
  renameErr : Option PyError

/-- Python truthiness of the extracted identifier: none and the empty string
are falsy. -/
def truthyId (s : Option (List Char)) : Bool :=
  match s with
  | none => false
  | some [] => false
  | some (_ :: _) => true

/-- Common tail of every successful strategy: rename_downloaded_files runs and
the literal downloaded is returned. -/
def finishFetch (env : FetchEnv) : Except PyError (Option (List Char)) :=
  match env.renameErr with
  | some e => Except.error e
  | none => Except.ok (some downloadedL)

def runStrategy (r : Option PyError) (env : FetchEnv) :
    Except PyError (Option (List Char)) :=
  match r with
  | some e => Except.error e
  | none => finishFetch env

/-- Body of the try block of download_from_url: the url is classified by
substring tests in source order; an invalid Google Drive url logs and returns
the sentinel none without raising (Python truthiness: a none or empty
identifier is invalid). -/
def fetch_body (url : List Char) (env : FetchEnv) :
    Except PyError (Option (List Char)) :=
  if containsSubstr driveL url then
    (if truthyId (extract_google_drive_id url) then runStrategy env.gdownErr env
     else Except.ok none)
  else if containsSubstr blobL url || containsSubstr resolveL url then
    runStrategy env.blobErr env
  else if containsSubstr treeMainL url then
    runStrategy env.hfErr env
  else
    runStrategy env.genericErr env

/-- Embedding of download_from_url: the try/except wrapper around fetch_body,
converting any raised error into the sentinel none. -/
def download_from_url (url : List Char) (env : FetchEnv) : Option (List Char) :=
  match fetch_body url env with
  | Except.ok v => v
  | Except.error _ => none

/-! The archive extractor. -/

/-- Outcome environment for extract: the archive extraction itself or the
subsequent deletion of the archive can raise. -/
inductive ZipEnv where
  | ok
  | extractallRaises
  | removeRaises
deriving DecidableEq

structure ArchiveState where
  archivePresent : Bool
  extracted : Bool
deriving DecidableEq

def initialArchiveState : ArchiveState := ⟨true, false⟩

/-- Body of the try block of extract: extractall, then removal of the archive,
then the literal True; a second component of none models an escaping
exception, paired with the state at the raise point. -/
def extract_try (env : ZipEnv) (s : ArchiveState) : ArchiveState × Option Bool :=
  match env with
  | ZipEnv.extractallRaises => (s, none)
  | ZipEnv.removeRaises => (⟨s.archivePresent, true⟩, none)
  | ZipEnv.ok => (⟨false, true⟩, some true)

/-- Embedding of extract: the except branch converts any escaping exception
into the return value False. -/
def extract (env : ZipEnv) (s : ArchiveState) : ArchiveState × Bool :=
  match extract_try env s with
  | (s2, some b) => (s2, b)
  | (s2, none) => (s2, false)

/-! The extraction directory model and the layout normalizer. -/

/-- Filesystem entry: a regular file or a directory with its contents.  A real
directory listing has pairwise distinct names, which theorems assume where
needed. -/
inductive Entry where
  | file (name : List Char)
  | dir (name : List Char) (contents : List Entry)

def entryName : Entry → List Char
  | Entry.file n => n
  | Entry.dir n _ => n

def isDirE : Entry → Bool
  | Entry.file _ => false
  | Entry.dir _ _ => true

def isFileE : Entry → Bool
  | Entry.file _ => true
  | Entry.dir _ _ => false

def names (es : List Entry) : List (List Char) := es.map entryName

/-- Models os.path.exists inside the listed directory. -/
def existsName (n : List Char) (es : List Entry) : Bool :=
  es.any (fun e => decide (entryName e = n))

def macosxL : List Char := str "__MACOSX"

def pthMark : List Char := str ".pth"

def idxMark : List Char := str ".index"

/-- Models the removal of the platform metadata folder: the recursive delete
of the top level entry named __MACOSX when it exists (a no op otherwise). -/
def removeMacosx (es : List Entry) : List Entry :=
  es.filter (fun e => decide (entryName e ≠ macosxL))

def subdirs (es : List Entry) : List Entry := es.filter isDirE

def filterFiles (es : List Entry) : List Entry := es.filter (fun e => !(isDirE e))

/-- Models the single subfolder hoist of clean_extracted_files: when the
directory holds exactly one subdirectory, every item of that subdirectory is
moved up one level and the emptied subdirectory is removed; otherwise nothing
happens.  The move is modelled as relocation of the entry; the behaviour of
shutil.move on a name collision at the destination is an external library
concern not modelled here, so theorems assume the hoisted names are fresh. -/
def hoistSingleSubdir (es : List Entry) : List Entry :=
  match subdirs es with
  | [Entry.dir _ cs] => filterFiles es ++ cs
  | _ => es

/-- Destination name chosen by the rename loop for an item, following the
source order of the marker tests: a name containing .pth is renamed to the
canonical weights name, otherwise a name containing .index to the canonical
index name, otherwise the item is left alone. -/
def renameTarget (m : List Char) (item : List Char) : Option (List Char) :=
  if containsSubstr pthMark item then some (m ++ pthMark)
  else if containsSubstr idxMark item then some (m ++ idxMark)
  else none

/-- Models os.rename: the entry named o is renamed to d in place, keeping its
kind and contents. -/
def renameEntryIn (o d : List Char) (es : List Entry) : List Entry :=
  es.map (fun e =>
    if entryName e = o then
      (match e with
       | Entry.file _ => Entry.file d
       | Entry.dir _ cs => Entry.dir d cs)
    else e)

/-- The rename loop of clean_extracted_files: it iterates over a directory
listing snapshot taken before the first rename, skipping any rename whose
destination name already exists. -/
def renameLoop (m : List Char) : List (List Char) → List Entry → List Entry
  | [], es => es
  | item :: rest, es =>
    match renameTarget m item with
    | none => renameLoop m rest es
    | some dst =>
      if existsName dst es then renameLoop m rest es
      else renameLoop m rest (renameEntryIn item dst es)

/-- The rename step of clean_extracted_files, run on the snapshot of the
current listing. -/
def renameStep (m : List Char) (es : List Entry) : List Entry :=
  renameLoop m (names es) es

/-- Embedding of clean_extracted_files: metadata folder removal, single
subfolder hoist, then the rename loop. -/
def clean_extracted_files (es : List Entry) (m : List Char) : List Entry :=
  renameStep m (hoistSingleSubdir (removeMacosx es))

def countName (n : List Char) (es : List Entry) : Nat :=
  (es.filter (fun e => decide (entryName e = n))).length

/-- The target directory invariant claimed for a normalized directory: at most
one entry carries the canonical weights name and at most one the canonical
index name, no platform metadata entry remains, and the directory does not
consist of exactly one subdirectory wrapper. -/
def targetInvariant (m : List Char) (es : List Entry) : Prop :=
  countName (m ++ pthMark) es ≤ 1 ∧ countName (m ++ idxMark) es ≤ 1 ∧
  existsName macosxL es = false ∧ (subdirs es).length ≠ 1

/-! The artifact search. -/

/-- Models the Python test s.endswith(suf). -/
def endsWith (suf s : List Char) : Bool := startsWith suf.reverse s.reverse

/-- Models os.path.join for a directory and a plain name. -/
def pathJoin (a b : List Char) : List Char := a ++ '/' :: b

/-- Embedding of search_pth_index: a missing folder (none) yields two empty
lists; otherwise the two lists hold the joined paths of the top level regular
files whose names end in .pth respectively .index. -/
def search_pth_index (folder : Option (List Entry)) (folderPath : List Char) :
    List (List Char) × List (List Char) :=
  match folder with
  | none => ([], [])
  | some es =>
    ((es.filter (fun e => isFileE e && endsWith pthMark (entryName e))).map
        (fun e => pathJoin folderPath (entryName e)),
     (es.filter (fun e => isFileE e && endsWith idxMark (entryName e))).map
        (fun e => pathJoin folderPath (entryName e)))

/-! Supporting lemmas. -/

theorem startsWith_append (a r : List Char) : startsWith a (a ++ r) = true := by
  induction a with
  | nil => rfl
  | cons x xs ih => simp [startsWith, ih]

theorem startsWith_iff_exists {a s : List Char} :
    startsWith a s = true ↔ ∃ r, s = a ++ r := by
  constructor
  · intro h
    induction a generalizing s with
    | nil => exact ⟨s, rfl⟩
    | cons x xs ih =>
      cases s with
      | nil => simp [startsWith] at h
      | cons c cs =>
        simp only [startsWith, Bool.and_eq_true, decide_eq_true_eq] at h
        obtain ⟨r, hr⟩ := ih h.2
        exact ⟨r, by simp [h.1, hr]⟩
  · rintro ⟨r, rfl⟩
    exact startsWith_append a r

theorem contains_of_startsWith {sep s : List Char} (h0 : sep ≠ [])
    (h : startsWith sep s = true) : containsSubstr sep s = true := by
  cases s with
  | nil =>
    cases sep with
    | nil => exact absurd rfl h0
    | cons c cs => simp [startsWith] at h
  | cons c cs => simp [containsSubstr, findSplit, h]

theorem contains_cons {sep s : List Char} (c : Char)
    (h : containsSubstr sep s = true) : containsSubstr sep (c :: s) = true := by
  simp only [containsSubstr, findSplit]
  split
  · rfl
  · simp only [containsSubstr, Option.isSome_iff_exists] at h
    obtain ⟨⟨pre, post⟩, hp⟩ := h
    simp [hp]

theorem contains_append_self (sep a : List Char) (h0 : sep ≠ []) :
    containsSubstr sep (a ++ sep) = true := by
  induction a with
  | nil =>
    have h := startsWith_append sep []
    rw [List.append_nil] at h
    simpa using contains_of_startsWith h0 h
  | cons x xs ih => exact contains_cons x ih

theorem not_contains_findSplit {sep s : List Char}
    (h : containsSubstr sep s = false) : findSplit sep s = none := by
  simp only [containsSubstr] at h
  cases hf : findSplit sep s with
  | none => rfl
  | some p => rw [hf] at h; simp at h

theorem takeUntil_of_not_contains {sep s : List Char}
    (h : containsSubstr sep s = false) : takeUntil sep s = s := by
  simp [takeUntil, not_contains_findSplit h]

theorem afterFirst_of_some {sep s pre post : List Char}
    (h : findSplit sep s = some (pre, post)) : afterFirst sep s = post := by
  simp [afterFirst, h]

theorem findSplit_length {sep : List Char} (_h0 : sep ≠ []) :
    ∀ {s pre post : List Char}, findSplit sep s = some (pre, post) →
      post.length < s.length := by
  intro s
  induction s with
  | nil => intro pre post h; simp [findSplit] at h
  | cons c rest ih =>
    intro pre post h
    simp only [findSplit] at h
    split at h
    · simp only [Option.some.injEq, Prod.mk.injEq] at h
      obtain ⟨h1, h2⟩ := h
      subst h2
      simp only [List.length_drop, List.length_cons]
      omega
    · revert h
      cases hf : findSplit sep rest with
      | none => intro h; exact absurd h (by simp)
      | some p =>
        obtain ⟨pre2, post2⟩ := p
        intro h
        simp only [Option.some.injEq, Prod.mk.injEq] at h
        obtain ⟨h1, h2⟩ := h
        subst h2
        have := ih hf
        simp only [List.length_cons]
        omega

theorem replaceAllFuel_congr (sep rep : List Char) (h0 : sep ≠ []) :
    ∀ (f1 : Nat) (l : List Char) (f2 : Nat), l.length ≤ f1 → l.length ≤ f2 →
      replaceAllFuel sep rep f1 l = replaceAllFuel sep rep f2 l := by
  intro f1
  induction f1 with
  | zero =>
    intro l f2 h1 h2
    have : l = [] := List.length_eq_zero.mp (Nat.le_zero.mp h1)
    subst this
    cases f2 with
    | zero => rfl
    | succ n => simp [replaceAllFuel, findSplit]
  | succ n ih =>
    intro l f2 h1 h2
    cases f2 with
    | zero =>
      have : l = [] := List.length_eq_zero.mp (Nat.le_zero.mp h2)
      subst this
      simp [replaceAllFuel, findSplit]
    | succ m =>
      simp only [replaceAllFuel]
      cases hf : findSplit sep l with
      | none => rfl
      | some p =>
        obtain ⟨pre, post⟩ := p
        have hlen := findSplit_length h0 hf
        have ihp := ih post m (by omega) (by omega)
        simp only [ihp]

theorem replaceAll_of_not_contains {sep rep s : List Char}
    (h : containsSubstr sep s = false) : replaceAll sep rep s = s := by
  have hf := not_contains_findSplit h
  cases hl : s.length with
  | zero => simp [replaceAll, hl, replaceAllFuel]
  | succ n => simp [replaceAll, hl, replaceAllFuel, hf]

theorem replaceAll_of_some {sep rep s pre post : List Char} (h0 : sep ≠ [])
    (h : findSplit sep s = some (pre, post)) :
    replaceAll sep rep s = pre ++ rep ++ replaceAll sep rep post := by
  have hlen := findSplit_length h0 h
  cases hl : s.length with
  | zero => omega
  | succ n =>
    have : replaceAllFuel sep rep s.length s =
        pre ++ rep ++ replaceAllFuel sep rep n post := by
      rw [hl]
      simp [replaceAllFuel, h]
    rw [replaceAll, this, replaceAll]
    have hc := replaceAllFuel_congr sep rep h0 n post post.length (by omega) (by omega)
    rw [hc]

/-! Claim C1: Google Drive identifier extraction. -/

/-- C1 (counterexample): on a url where the pattern file/d/ occurs twice, the
code truncates the identifier at the second occurrence of the pattern rather
than at the next slash, so the extracted identifier (abc) differs from the
value the claim describes, the substring between file/d/ and the next slash
(abcfile). -/
theorem extract_google_drive_id_spec_counterexample :
    extract_google_drive_id (str "https://drive.google.com/file/d/abcfile/d/x/view") =
      some (str "abc") ∧
    specDriveId (str "https://drive.google.com/file/d/abcfile/d/x/view") =
      some (str "abcfile") ∧
    extract_google_drive_id (str "https://drive.google.com/file/d/abcfile/d/x/view") ≠
      specDriveId (str "https://drive.google.com/file/d/abcfile/d/x/view") := by
  refine ⟨by decide, by decide, by decide⟩

/-- C1 (amended): when file/d/ occurs exactly once in the url, the extracted
identifier is exactly the text between that occurrence and the next slash;
when file/d/ is absent and id= occurs exactly once, it is exactly the text
between id= and the next ampersand; when neither pattern occurs the sentinel
none is returned, and the Google Drive branch of the caller then logs the
invalid url and returns the failure sentinel none instead of raising. -/
theorem extract_google_drive_id_amended (url a b : List Char) (env : FetchEnv) :
    (findSplit fileDL url = some (a, b) → containsSubstr fileDL b = false →
      extract_google_drive_id url = some (takeUntil slashL b)) ∧
    (containsSubstr fileDL url = false → findSplit idEqL url = some (a, b) →
      containsSubstr idEqL b = false →
      extract_google_drive_id url = some (takeUntil ampL b)) ∧
    (containsSubstr fileDL url = false → containsSubstr idEqL url = false →
      extract_google_drive_id url = none) ∧
    (containsSubstr driveL url = true → extract_google_drive_id url = none →
      download_from_url url env = none) := by
  refine ⟨?_, ?_, ?_, ?_⟩
  · intro h hc
    have hcu : containsSubstr fileDL url = true := by simp [containsSubstr, h]
    simp [extract_google_drive_id, hcu, pySplitSecond, afterFirst_of_some h,
      takeUntil_of_not_contains hc]
  · intro hn h hc
    have hcu : containsSubstr idEqL url = true := by simp [containsSubstr, h]
    simp [extract_google_drive_id, hn, hcu, pySplitSecond, afterFirst_of_some h,
      takeUntil_of_not_contains hc]
  · intro h1 h2
    simp [extract_google_drive_id, h1, h2]
  · intro hd hnone
    simp [download_from_url, fetch_body, hd, hnone, truthyId]

/-- Witness for C1: the three branches at concrete urls, and the caller
returning the sentinel on an unparseable Google Drive url. -/
theorem extract_google_drive_id_amended_witness :
    extract_google_drive_id (str "https://drive.google.com/file/d/FILEID123/view") =
      some (str "FILEID123") ∧
    extract_google_drive_id (str "https://drive.google.com/open?id=ZID77&usp=x") =
      some (str "ZID77") ∧
    extract_google_drive_id (str "https://drive.google.com/whatever") = none ∧
    download_from_url (str "https://drive.google.com/whatever")
      ⟨none, none, none, none, none⟩ = none := by
  refine ⟨?_, ?_, ?_, ?_⟩
  · have h := (extract_google_drive_id_amended
      (str "https://drive.google.com/file/d/FILEID123/view")
      (str "https://drive.google.com/") (str "FILEID123/view")
      ⟨none, none, none, none, none⟩).1 (by decide) (by decide)
    rw [h]; decide
  · have h := (extract_google_drive_id_amended
      (str "https://drive.google.com/open?id=ZID77&usp=x")
      (str "https://drive.google.com/open?") (str "ZID77&usp=x")
      ⟨none, none, none, none, none⟩).2.1 (by decide) (by decide) (by decide)
    rw [h]; decide
  · exact (extract_google_drive_id_amended
      (str "https://drive.google.com/whatever") [] []
      ⟨none, none, none, none, none⟩).2.2.1 (by decide) (by decide)
  · exact (extract_google_drive_id_amended
      (str "https://drive.google.com/whatever") [] []
      ⟨none, none, none, none, none⟩).2.2.2 (by decide) (by decide)

/-! Claim C2: the blob to resolve rewriting. -/

/-- C2 (counterexample): Python replace substitutes every occurrence, so a url
containing /blob/ twice contains no occurrence at all after rewriting,
contradicting the claim that only the first occurrence is replaced and the
second one survives. -/
theorem blob_rewrite_counterexample :
    blob_or_resolve_rewrite (str "https://host/blob/main/blob/x") =
      str "https://host/resolve/main/resolve/x" ∧
    containsSubstr blobL
      (blob_or_resolve_rewrite (str "https://host/blob/main/blob/x")) = false := by
  refine ⟨by decide, by decide⟩

/-- C2 (amended): the rewriting replaces every non overlapping occurrence of
/blob/ by /resolve/, scanning left to right: splitting at the first
occurrence, the prefix is kept, the occurrence becomes /resolve/, and the
remainder is rewritten the same way; in particular when /blob/ occurs exactly
once, that occurrence is replaced and the rest of the url is unchanged, and a
url without /blob/ is left untouched. -/
theorem blob_rewrite_amended (url pre post : List Char) :
    (findSplit blobL url = some (pre, post) →
      blob_or_resolve_rewrite url = pre ++ resolveL ++ replaceAll blobL resolveL post) ∧
    (findSplit blobL url = some (pre, post) → containsSubstr blobL post = false →
      blob_or_resolve_rewrite url = pre ++ resolveL ++ post) ∧
    (containsSubstr blobL url = false → blob_or_resolve_rewrite url = url) := by
  refine ⟨?_, ?_, ?_⟩
  · intro h
    have hcu : containsSubstr blobL url = true := by simp [containsSubstr, h]
    simp [blob_or_resolve_rewrite, hcu]
    rw [replaceAll_of_some (show blobL ≠ [] by decide) h, List.append_assoc]
  · intro h hc
    have hcu : containsSubstr blobL url = true := by simp [containsSubstr, h]
    simp [blob_or_resolve_rewrite, hcu]
    rw [replaceAll_of_some (show blobL ≠ [] by decide) h,
      replaceAll_of_not_contains hc, List.append_assoc]
  · intro h
    simp [blob_or_resolve_rewrite, h]

/-- Witness for C2: the single occurrence literal of the spec test. -/
theorem blob_rewrite_amended_witness :
    blob_or_resolve_rewrite (str "https://huggingface.co/u/r/blob/main/model.zip") =
      str "https://huggingface.co/u/r/resolve/main/model.zip" := by
  have h := (blob_rewrite_amended
    (str "https://huggingface.co/u/r/blob/main/model.zip")
    (str "https://huggingface.co/u/r") (str "main/model.zip")).2.1
    (by decide) (by decide)
  rw [h]; decide

/-! Claim C5: error handling of the archive extractor. -/

/-- C5: extract never lets an exception escape: an escaping exception of the
try body is converted into the return value False; True is returned exactly
when both the extraction and the deletion succeed; when extractall itself
raises, the archive file is still present; and the archive can only be gone
when the extraction completed. -/
theorem extract_error_handling (env : ZipEnv) :
    ((extract_try env initialArchiveState).2 = none →
      (extract env initialArchiveState).2 = false) ∧
    ((extract env initialArchiveState).2 = true ↔ env = ZipEnv.ok) ∧
    (env = ZipEnv.extractallRaises →
      (extract env initialArchiveState).1.archivePresent = true ∧
      (extract env initialArchiveState).2 = false) ∧
    ((extract env initialArchiveState).1.archivePresent = false →
      (extract env initialArchiveState).1.extracted = true) := by
  cases env <;> decide

/-- Witness for C5: a failing extraction leaves the archive in place and
returns False, and a failing deletion also returns False. -/
theorem extract_error_handling_witness :
    (extract ZipEnv.extractallRaises initialArchiveState).1.archivePresent = true ∧
    (extract ZipEnv.extractallRaises initialArchiveState).2 = false ∧
    (extract ZipEnv.removeRaises initialArchiveState).2 = false := by
  refine ⟨((extract_error_handling ZipEnv.extractallRaises).2.2.1 rfl).1,
    ((extract_error_handling ZipEnv.extractallRaises).2.2.1 rfl).2,
    (extract_error_handling ZipEnv.removeRaises).1 rfl⟩

/-! Claim C6: the fetch pipeline never propagates exceptions. -/

theorem runStrategy_shape (r : Option PyError) (env : FetchEnv) :
    runStrategy r env = Except.ok (some downloadedL) ∨
    ∃ e, runStrategy r env = Except.error e := by
  cases r with
  | some e => exact Or.inr ⟨e, rfl⟩
  | none =>
    cases h : env.renameErr with
    | some e => exact Or.inr ⟨e, by simp [runStrategy, finishFetch, h]⟩
    | none => exact Or.inl (by simp [runStrategy, finishFetch, h])

theorem fetch_body_shape (url : List Char) (env : FetchEnv) :
    fetch_body url env = Except.ok none ∨
    fetch_body url env = Except.ok (some downloadedL) ∨
    ∃ e, fetch_body url env = Except.error e := by
  have hs : ∀ r, runStrategy r env = Except.ok (some downloadedL) ∨
      ∃ e, runStrategy r env = Except.error e := fun r => runStrategy_shape r env
  unfold fetch_body
  split
  · split
    · rcases hs env.gdownErr with h | ⟨e, h⟩
      · exact Or.inr (Or.inl h)
      · exact Or.inr (Or.inr ⟨e, h⟩)
    · exact Or.inl rfl
  · split
    · rcases hs env.blobErr with h | ⟨e, h⟩
      · exact Or.inr (Or.inl h)
      · exact Or.inr (Or.inr ⟨e, h⟩)
    · split
      · rcases hs env.hfErr with h | ⟨e, h⟩
        · exact Or.inr (Or.inl h)
        · exact Or.inr (Or.inr ⟨e, h⟩)
      · rcases hs env.genericErr with h | ⟨e, h⟩
        · exact Or.inr (Or.inl h)
        · exact Or.inr (Or.inr ⟨e, h⟩)

/-- C6: download_from_url yields only the success literal or the sentinel
none; any error raised inside the body is converted into none; and a
successful body yields the success literal. -/
theorem download_from_url_no_propagation (url : List Char) (env : FetchEnv) :
    (download_from_url url env = none ∨ download_from_url url env = some downloadedL) ∧
    (∀ e, fetch_body url env = Except.error e → download_from_url url env = none) ∧
    (fetch_body url env = Except.ok (some downloadedL) →
      download_from_url url env = some downloadedL) := by
  refine ⟨?_, ?_, ?_⟩
  · rcases fetch_body_shape url env with h | h | ⟨e, h⟩ <;> simp [download_from_url, h]
  · intro e h; simp [download_from_url, h]
  · intro h; simp [download_from_url, h]

/-- Witness for C6: a generic url whose strategy raises is converted into the
sentinel, and a succeeding strategy yields the success literal. -/
theorem download_from_url_no_propagation_witness :
    download_from_url (str "http://example.com/m.zip")
      ⟨none, none, none, some (PyError.downloadError 500), none⟩ = none ∧
    download_from_url (str "http://example.com/m.zip")
      ⟨none, none, none, none, none⟩ = some downloadedL := by
  refine ⟨(download_from_url_no_propagation (str "http://example.com/m.zip")
      ⟨none, none, none, some (PyError.downloadError 500), none⟩).2.1
      (PyError.downloadError 500) ?_,
    (download_from_url_no_propagation (str "http://example.com/m.zip")
      ⟨none, none, none, none, none⟩).2.2 ?_⟩ <;> rfl

/-! Claim C7: the generic strategy on a non 200 status. -/

/-- C7: a non 200 response makes download_file raise a download error carrying
the observed status code while the staging directory is left unchanged (no
file is written), and conversely the stream to file step is reached only on
status 200. -/
theorem download_file_non_200 (resp : HttpResponse) (staging : List (List Char)) :
    (resp.status ≠ 200 →
      download_file resp staging = (staging, some (PyError.downloadError resp.status))) ∧
    ((download_file resp staging).2 = none → resp.status = 200) := by
  constructor
  · intro h; simp [download_file, h]
  · intro h
    by_cases hs : resp.status = 200
    · exact hs
    · simp [download_file, hs] at h

/-- Witness for C7: a 404 response raises the download error with status 404
and the staging directory stays empty. -/
theorem download_file_non_200_witness :
    download_file ⟨404, []⟩ [] = ([], some (PyError.downloadError 404)) :=
  (download_file_non_200 ⟨404, []⟩ []).1 (by decide)

/-! Claim C10: totality and soundness of the artifact search. -/

/-- C10: a missing folder yields the pair of empty lists rather than an
error; for an existing folder, every returned path in the first list is the
joined path of a top level regular file whose name ends in .pth, and
correspondingly with .index for the second list. -/
theorem search_pth_index_total (folder : Option (List Entry)) (fp : List Char) :
    (folder = none → search_pth_index folder fp = ([], [])) ∧
    (∀ es, folder = some es →
      (∀ p ∈ (search_pth_index folder fp).1, ∃ nm, Entry.file nm ∈ es ∧
        endsWith pthMark nm = true ∧ p = pathJoin fp nm) ∧
      (∀ p ∈ (search_pth_index folder fp).2, ∃ nm, Entry.file nm ∈ es ∧
        endsWith idxMark nm = true ∧ p = pathJoin fp nm)) := by
  constructor
  · intro h; subst h; rfl
  · intro es h; subst h
    constructor
    · intro p hp
      simp only [search_pth_index, List.mem_map, List.mem_filter] at hp
      obtain ⟨e, ⟨he, hcond⟩, rfl⟩ := hp
      rw [Bool.and_eq_true] at hcond
      cases e with
      | file nm => exact ⟨nm, he, hcond.2, rfl⟩
      | dir nm cs => simp [isFileE] at hcond
    · intro p hp
      simp only [search_pth_index, List.mem_map, List.mem_filter] at hp
      obtain ⟨e, ⟨he, hcond⟩, rfl⟩ := hp
      rw [Bool.and_eq_true] at hcond
      cases e with
      | file nm => exact ⟨nm, he, hcond.2, rfl⟩
      | dir nm cs => simp [isFileE] at hcond

/-- Witness for C10: the missing folder case, and a concrete folder with one
weights file, one subdirectory and one index file. -/
theorem search_pth_index_total_witness :
    search_pth_index none (str "/logs/m") = ([], []) ∧
    (∃ nm, Entry.file nm ∈
        [Entry.file (str "a.pth"), Entry.dir (str "sub") [], Entry.file (str "b.index")] ∧
      endsWith pthMark nm = true ∧
      pathJoin (str "/logs/m") (str "a.pth") = pathJoin (str "/logs/m") nm) := by
  refine ⟨(search_pth_index_total none (str "/logs/m")).1 rfl, ?_⟩
  exact ((search_pth_index_total
    (some [Entry.file (str "a.pth"), Entry.dir (str "sub") [], Entry.file (str "b.index")])
    (str "/logs/m")).2 _ rfl).1 (pathJoin (str "/logs/m") (str "a.pth")) (by decide)

/-! Claim C3: the single subfolder hoist. -/

theorem mem_of_mem_subdirs {es : List Entry} {e : Entry} (h : e ∈ subdirs es) :
    e ∈ es ∧ isDirE e = true := by
  simpa [subdirs] using List.mem_filter.mp h

theorem names_nodup_inj {es : List Entry} (h : (names es).Nodup) :
    ∀ x ∈ es, ∀ y ∈ es, entryName x = entryName y → x = y := by
  induction es with
  | nil => intro x hx; simp at hx
  | cons e t ih =>
    simp only [names, List.map_cons, List.nodup_cons] at h
    intro x hx y hy hxy
    rcases List.mem_cons.mp hx with rfl | hx2
    · rcases List.mem_cons.mp hy with rfl | hy2
      · rfl
      · exact absurd (hxy ▸ List.mem_map_of_mem entryName hy2) h.1
    · rcases List.mem_cons.mp hy with rfl | hy2
      · exact absurd (hxy ▸ List.mem_map_of_mem entryName hx2) h.1
      · exact ih h.2 x hx2 y hy2 hxy

/-- C3: with exactly one subdirectory present, the normalizer moves every item
of that subdirectory one level up into the extraction directory and removes
the subdirectory, so the moved entries are present at top level afterwards and
no top level entry keeps the subdirectory name; with zero or at least two
subdirectories the hoist step is a no op.  The freshness hypothesis reflects
that moving an item onto an already existing destination name is external
library behaviour outside this model, and the distinctness hypothesis is the
standing property of real directory listings. -/
theorem hoist_single_subdir_correct (es : List Entry) (n : List Char) (cs : List Entry)
    (hnd : (names es).Nodup)
    (h1 : subdirs es = [Entry.dir n cs])
    (h2 : ∀ nm ∈ names cs, nm ∉ names es) :
    hoistSingleSubdir es = filterFiles es ++ cs ∧
    (∀ e ∈ cs, e ∈ hoistSingleSubdir es) ∧
    (∀ nm ∈ names (hoistSingleSubdir es), nm ≠ n) ∧
    (∀ es2 : List Entry, subdirs es2 = [] ∨ 2 ≤ (subdirs es2).length →
      hoistSingleSubdir es2 = es2) := by
  have hmemdir : Entry.dir n cs ∈ es := by
    have : Entry.dir n cs ∈ subdirs es := by rw [h1]; exact List.mem_singleton.mpr rfl
    exact (mem_of_mem_subdirs this).1
  have hn_mem : n ∈ names es := List.mem_map_of_mem entryName hmemdir
  have he : hoistSingleSubdir es = filterFiles es ++ cs := by
    unfold hoistSingleSubdir
    rw [h1]
  refine ⟨he, ?_, ?_, ?_⟩
  · intro e hc
    rw [he]
    exact List.mem_append_right _ hc
  · intro nm hm
    rw [he, names, List.map_append] at hm
    rcases List.mem_append.mp hm with hl | hr
    · intro hEq
      subst hEq
      obtain ⟨e, hef, hname⟩ := List.mem_map.mp hl
      have hes := List.mem_filter.mp hef
      have : e = Entry.dir nm cs :=
        names_nodup_inj hnd e hes.1 (Entry.dir nm cs) hmemdir hname
      rw [this] at hes
      simp [isDirE] at hes
    · intro hEq
      subst hEq
      exact h2 nm hr hn_mem
  · intro es2 hz
    rcases hz with hz | hz
    · unfold hoistSingleSubdir
      rw [hz]
    · cases hs : subdirs es2 with
      | nil => rw [hs] at hz; simp at hz
      | cons x t =>
        cases t with
        | nil => rw [hs] at hz; simp at hz
        | cons y t2 =>
          cases x <;> (unfold hoistSingleSubdir; rw [hs])

/-- Witness for C3: the wrapper scenario of the spec, a single subdirectory
holding one weights file and one index file. -/
theorem hoist_single_subdir_correct_witness :
    hoistSingleSubdir [Entry.dir (str "wrapper")
        [Entry.file (str "a.pth"), Entry.file (str "b.index")]] =
      [Entry.file (str "a.pth"), Entry.file (str "b.index")] ∧
    (∀ nm ∈ names (hoistSingleSubdir [Entry.dir (str "wrapper")
        [Entry.file (str "a.pth"), Entry.file (str "b.index")]]),
      nm ≠ str "wrapper") := by
  have h := hoist_single_subdir_correct
    [Entry.dir (str "wrapper") [Entry.file (str "a.pth"), Entry.file (str "b.index")]]
    (str "wrapper") [Entry.file (str "a.pth"), Entry.file (str "b.index")]
    (by decide) rfl (by decide)
  exact ⟨h.1, h.2.2.1⟩

/-! Lemmas about the rename loop, shared by the rename step and invariant
claims. -/

theorem renameLoop_cons_none {m item : List Char} {rest : List (List Char)}
    {es : List Entry} (ht : renameTarget m item = none) :
    renameLoop m (item :: rest) es = renameLoop m rest es := by
  simp [renameLoop, ht]

theorem renameLoop_cons_skip {m item dst : List Char} {rest : List (List Char)}
    {es : List Entry} (ht : renameTarget m item = some dst)
    (hex : existsName dst es = true) :
    renameLoop m (item :: rest) es = renameLoop m rest es := by
  simp [renameLoop, ht, hex]

theorem renameLoop_cons_rename {m item dst : List Char} {rest : List (List Char)}
    {es : List Entry} (ht : renameTarget m item = some dst)
    (hex : existsName dst es = false) :
    renameLoop m (item :: rest) es = renameLoop m rest (renameEntryIn item dst es) := by
  simp [renameLoop, ht, hex]

theorem renameTarget_shape {m item dst : List Char}
    (h : renameTarget m item = some dst) :
    dst = m ++ pthMark ∨ dst = m ++ idxMark := by
  unfold renameTarget at h
  split at h
  · exact Or.inl (Option.some.inj h).symm
  · split at h
    · exact Or.inr (Option.some.inj h).symm
    · exact absurd h (by simp)

theorem renameTarget_pth (m : List Char) :
    renameTarget m (m ++ pthMark) = some (m ++ pthMark) := by
  simp [renameTarget, contains_append_self pthMark m (show pthMark ≠ [] by decide)]

theorem renameTarget_idx {m : List Char}
    (hm : containsSubstr pthMark (m ++ idxMark) = false) :
    renameTarget m (m ++ idxMark) = some (m ++ idxMark) := by
  simp [renameTarget, hm, contains_append_self idxMark m (show idxMark ≠ [] by decide)]

theorem existsName_iff {n : List Char} {es : List Entry} :
    existsName n es = true ↔ n ∈ names es := by
  simp [existsName, names, List.any_eq_true]

theorem names_renameEntryIn (o d : List Char) (es : List Entry) :
    names (renameEntryIn o d es) = (names es).map (fun x => if x = o then d else x) := by
  unfold names renameEntryIn
  rw [List.map_map, List.map_map]
  apply List.map_congr_left
  intro e _
  by_cases h : entryName e = o <;> cases e <;> simp_all [entryName, Function.comp]

theorem mem_names_renameEntryIn {o d y : List Char} {es : List Entry}
    (h : y ∈ names (renameEntryIn o d es)) : y = d ∨ y ∈ names es := by
  rw [names_renameEntryIn] at h
  obtain ⟨x, hx, hfx⟩ := List.mem_map.mp h
  by_cases hc : x = o
  · rw [if_pos hc] at hfx
    exact Or.inl hfx.symm
  · rw [if_neg hc] at hfx
    exact Or.inr (hfx ▸ hx)

theorem renameEntryIn_not_mem {o d : List Char} {es : List Entry}
    (h : o ∉ names es) : renameEntryIn o d es = es := by
  induction es with
  | nil => rfl
  | cons e t ih =>
    simp only [names, List.map_cons, List.mem_cons, not_or] at h
    have h1 : entryName e ≠ o := fun hc => h.1 hc.symm
    simp only [renameEntryIn, List.map_cons]
    rw [if_neg h1]
    congr 1
    exact ih h.2

theorem not_mem_names_renameEntryIn {o d : List Char} {es : List Entry}
    (hdo : d ≠ o) : o ∉ names (renameEntryIn o d es) := by
  rw [names_renameEntryIn]
  intro h
  obtain ⟨x, hx, hfx⟩ := List.mem_map.mp h
  by_cases hc : x = o
  · rw [if_pos hc] at hfx
    exact hdo hfx
  · rw [if_neg hc] at hfx
    exact hc hfx

theorem dst_mem_names_renameEntryIn {o d : List Char} {es : List Entry}
    (h : o ∈ names es) : d ∈ names (renameEntryIn o d es) := by
  rw [names_renameEntryIn]
  exact List.mem_map.mpr ⟨o, h, by simp⟩

theorem mem_names_renameEntryIn_of_ne {o d y : List Char} {es : List Entry}
    (h : y ∈ names es) (hne : y ≠ o) : y ∈ names (renameEntryIn o d es) := by
  rw [names_renameEntryIn]
  exact List.mem_map.mpr ⟨y, h, by simp [hne]⟩

theorem nodup_names_renameEntryIn {o d : List Char} {es : List Entry}
    (hnd : (names es).Nodup) (hd : d ∉ names es) :
    (names (renameEntryIn o d es)).Nodup := by
  rw [names_renameEntryIn]
  apply List.Nodup.map_on ?_ hnd
  intro x hx y hy hxy
  by_cases hxo : x = o <;> by_cases hyo : y = o
  · rw [hxo, hyo]
  · rw [if_pos hxo, if_neg hyo] at hxy
    exact absurd (by rw [hxy]; exact hy) hd
  · rw [if_neg hxo, if_pos hyo] at hxy
    exact absurd (by rw [← hxy]; exact hx) hd
  · rwa [if_neg hxo, if_neg hyo] at hxy

theorem subdirs_length_renameEntryIn (o d : List Char) (es : List Entry) :
    (subdirs (renameEntryIn o d es)).length = (subdirs es).length := by
  induction es with
  | nil => rfl
  | cons e t ih =>
    simp only [renameEntryIn, List.map_cons, subdirs, List.filter_cons]
    by_cases hc : entryName e = o
    · rw [if_pos hc]
      cases e with
      | file nm => simpa [subdirs, renameEntryIn, isDirE] using ih
      | dir nm cs => simpa [subdirs, renameEntryIn, isDirE] using ih
    · rw [if_neg hc]
      cases hd : isDirE e
      · simpa [subdirs, renameEntryIn, hd] using ih
      · simpa [subdirs, renameEntryIn, hd] using ih

theorem renameLoop_no_change (m : List Char) (items : List (List Char)) (es : List Entry)
    (hsub : ∀ i ∈ items, i ∈ names es)
    (hP : ∀ y ∈ names es, ∀ dst, renameTarget m y = some dst →
      existsName dst es = true) :
    renameLoop m items es = es := by
  induction items with
  | nil => rfl
  | cons item rest ih =>
    have hmem : item ∈ names es := hsub item (List.mem_cons_self item rest)
    cases ht : renameTarget m item with
    | none =>
      rw [renameLoop_cons_none ht]
      exact ih (fun i hi => hsub i (List.mem_cons_of_mem _ hi))
    | some dst =>
      rw [renameLoop_cons_skip ht (hP item hmem dst ht)]
      exact ih (fun i hi => hsub i (List.mem_cons_of_mem _ hi))

theorem renameLoop_keeps_unmarked (m : List Char) (items : List (List Char)) :
    ∀ {es : List Entry} {e : Entry}, e ∈ es →
      renameTarget m (entryName e) = none → e ∈ renameLoop m items es := by
  induction items with
  | nil => intro es e he _; exact he
  | cons item rest ih =>
    intro es e he ht
    cases hti : renameTarget m item with
    | none =>
      rw [renameLoop_cons_none hti]
      exact ih he ht
    | some dst =>
      cases hex : existsName dst es with
      | true =>
        rw [renameLoop_cons_skip hti hex]
        exact ih he ht
      | false =>
        rw [renameLoop_cons_rename hti hex]
        apply ih ?_ ht
        have hne : entryName e ≠ item := by
          intro hc
          rw [hc, hti] at ht
          exact Option.noConfusion ht
        unfold renameEntryIn
        exact List.mem_map.mpr ⟨e, he, if_neg hne⟩

theorem renameLoop_nodup (m : List Char) (items : List (List Char)) :
    ∀ es : List Entry, (names es).Nodup → (names (renameLoop m items es)).Nodup := by
  induction items with
  | nil => intro es h; exact h
  | cons item rest ih =>
    intro es h
    cases ht : renameTarget m item with
    | none =>
      rw [renameLoop_cons_none ht]
      exact ih es h
    | some dst =>
      cases hex : existsName dst es with
      | true =>
        rw [renameLoop_cons_skip ht hex]
        exact ih es h
      | false =>
        rw [renameLoop_cons_rename ht hex]
        apply ih
        apply nodup_names_renameEntryIn h
        intro hc
        rw [existsName_iff.mpr hc] at hex
        exact absurd hex (by decide)

theorem renameLoop_names_bound (m : List Char) (items : List (List Char)) :
    ∀ (es : List Entry) (y : List Char), y ∈ names (renameLoop m items es) →
      y ∈ names es ∨ y = m ++ pthMark ∨ y = m ++ idxMark := by
  induction items with
  | nil => intro es y hy; exact Or.inl hy
  | cons item rest ih =>
    intro es y hy
    cases ht : renameTarget m item with
    | none =>
      rw [renameLoop_cons_none ht] at hy
      exact ih es y hy
    | some dst =>
      cases hex : existsName dst es with
      | true =>
        rw [renameLoop_cons_skip ht hex] at hy
        exact ih es y hy
      | false =>
        rw [renameLoop_cons_rename ht hex] at hy
        rcases ih _ y hy with h | h
        · rcases mem_names_renameEntryIn h with rfl | h2
          · exact Or.inr (renameTarget_shape ht)
          · exact Or.inl h2
        · exact Or.inr h

theorem subdirs_length_renameLoop (m : List Char) (items : List (List Char)) :
    ∀ es : List Entry, (subdirs (renameLoop m items es)).length = (subdirs es).length := by
  induction items with
  | nil => intro es; rfl
  | cons item rest ih =>
    intro es
    cases ht : renameTarget m item with
    | none =>
      rw [renameLoop_cons_none ht]
      exact ih es
    | some dst =>
      cases hex : existsName dst es with
      | true =>
        rw [renameLoop_cons_skip ht hex]
        exact ih es
      | false =>
        rw [renameLoop_cons_rename ht hex, ih, subdirs_length_renameEntryIn]

/-- Invariant established by one pass of the rename loop: afterwards, every
remaining name that the loop would want to rename has its destination name
already present, so a second pass changes nothing.  The hypothesis on the
model name rules out a weights marker hidden inside the canonical index name,
the one situation in which a second pass would rename the index file again. -/
theorem renameLoop_establishes (m : List Char)
    (hm : containsSubstr pthMark (m ++ idxMark) = false) :
    ∀ (items : List (List Char)) (es : List Entry),
      (names es).Nodup →
      (∀ y ∈ names es, y ∉ items → ∀ dst, renameTarget m y = some dst →
        existsName dst es = true) →
      ∀ y ∈ names (renameLoop m items es), ∀ dst, renameTarget m y = some dst →
        existsName dst (renameLoop m items es) = true := by
  intro items
  induction items with
  | nil =>
    intro es _ hcond y hy dst ht
    exact hcond y hy (by simp) dst ht
  | cons item rest ih =>
    intro es hnd hcond
    cases ht : renameTarget m item with
    | none =>
      rw [renameLoop_cons_none ht]
      apply ih es hnd
      intro y hy hyr dst hdt
      by_cases hyi : y = item
      · rw [hyi, ht] at hdt
        exact Option.noConfusion hdt
      · exact hcond y hy (fun hc => (List.mem_cons.mp hc).elim hyi hyr) dst hdt
    | some dst =>
      cases hex : existsName dst es with
      | true =>
        rw [renameLoop_cons_skip ht hex]
        apply ih es hnd
        intro y hy hyr dst2 hdt
        by_cases hyi : y = item
        · rw [hyi, ht] at hdt
          rw [(Option.some.inj hdt).symm]
          exact hex
        · exact hcond y hy (fun hc => (List.mem_cons.mp hc).elim hyi hyr) dst2 hdt
      | false =>
        by_cases hmem : item ∈ names es
        · rw [renameLoop_cons_rename ht hex]
          have hdst_ne_item : dst ≠ item := by
            intro hdi
            have htr : existsName item es = true := existsName_iff.mpr hmem
            rw [hdi, htr] at hex
            exact absurd hex (by decide)
          have hitem_pth : item ≠ m ++ pthMark := by
            intro hip
            rw [hip, renameTarget_pth m] at ht
            exact hdst_ne_item ((Option.some.inj ht).symm.trans hip.symm)
          have hitem_idx : item ≠ m ++ idxMark := by
            intro hii
            rw [hii, renameTarget_idx hm] at ht
            exact hdst_ne_item ((Option.some.inj ht).symm.trans hii.symm)
          have hdst_not : dst ∉ names es := by
            intro hc
            rw [existsName_iff.mpr hc] at hex
            exact absurd hex (by decide)
          apply ih (renameEntryIn item dst es)
            (nodup_names_renameEntryIn hnd hdst_not)
          intro y hy hyr d2 hdt
          rcases mem_names_renameEntryIn hy with rfl | hyes
          · rcases renameTarget_shape ht with hsh | hsh
            · rw [hsh, renameTarget_pth m] at hdt
              rw [existsName_iff, (Option.some.inj hdt).symm, ← hsh]
              exact dst_mem_names_renameEntryIn hmem
            · rw [hsh, renameTarget_idx hm] at hdt
              rw [existsName_iff, (Option.some.inj hdt).symm, ← hsh]
              exact dst_mem_names_renameEntryIn hmem
          · have hyne_item : y ≠ item := by
              intro hyi
              rw [hyi] at hy
              exact not_mem_names_renameEntryIn hdst_ne_item hy
            have hold := hcond y hyes
              (fun hc => (List.mem_cons.mp hc).elim hyne_item hyr) d2 hdt
            have hd2_ne_item : d2 ≠ item := by
              rcases renameTarget_shape hdt with hsh | hsh
              · rw [hsh]
                exact fun hc => hitem_pth hc.symm
              · rw [hsh]
                exact fun hc => hitem_idx hc.symm
            rw [existsName_iff] at hold ⊢
            exact mem_names_renameEntryIn_of_ne hold hd2_ne_item
        · rw [renameLoop_cons_rename ht hex, renameEntryIn_not_mem hmem]
          apply ih es hnd
          intro y hy hyr d2 hdt
          by_cases hyi : y = item
          · exact absurd (hyi ▸ hy) hmem
          · exact hcond y hy (fun hc => (List.mem_cons.mp hc).elim hyi hyr) d2 hdt

/-! Claim C4: idempotence of the rename step. -/

/-- C4: under the standing distinctness of the directory listing, and as long
as the canonical index name does not itself contain the weights marker (true
for the model name mymodel of the claim), one run of the rename step is enough:
a second run on the result changes nothing, because every rename whose
destination already exists is skipped; and entries whose names contain neither
marker are never touched by the loop. -/
theorem rename_step_idempotent (es : List Entry) (m : List Char)
    (hnd : (names es).Nodup)
    (hm : containsSubstr pthMark (m ++ idxMark) = false) :
    renameStep m (renameStep m es) = renameStep m es ∧
    (∀ e ∈ es, renameTarget m (entryName e) = none → e ∈ renameStep m es) := by
  constructor
  · have hP := renameLoop_establishes m hm (names es) es hnd
      (fun y hy hyn _ _ => absurd hy hyn)
    exact renameLoop_no_change m (names (renameStep m es)) (renameStep m es)
      (fun i hi => hi) hP
  · intro e he ht
    exact renameLoop_keeps_unmarked m (names es) he ht

/-- Witness for C4: files foo.pth and bar.index with model name mymodel, plus
an untouched unrelated entry. -/
theorem rename_step_idempotent_witness :
    renameStep (str "mymodel")
        [Entry.file (str "foo.pth"), Entry.file (str "bar.index"),
         Entry.file (str "readme.txt")] =
      [Entry.file (str "mymodel.pth"), Entry.file (str "mymodel.index"),
       Entry.file (str "readme.txt")] ∧
    renameStep (str "mymodel")
        (renameStep (str "mymodel")
          [Entry.file (str "foo.pth"), Entry.file (str "bar.index"),
           Entry.file (str "readme.txt")]) =
      renameStep (str "mymodel")
        [Entry.file (str "foo.pth"), Entry.file (str "bar.index"),
         Entry.file (str "readme.txt")] ∧
    Entry.file (str "readme.txt") ∈ renameStep (str "mymodel")
        [Entry.file (str "foo.pth"), Entry.file (str "bar.index"),
         Entry.file (str "readme.txt")] := by
  refine ⟨rfl,
    (rename_step_idempotent
      [Entry.file (str "foo.pth"), Entry.file (str "bar.index"),
       Entry.file (str "readme.txt")] (str "mymodel") (by decide) (by decide)).1,
    (rename_step_idempotent
      [Entry.file (str "foo.pth"), Entry.file (str "bar.index"),
       Entry.file (str "readme.txt")] (str "mymodel") (by decide) (by decide)).2
      (Entry.file (str "readme.txt"))
      (List.mem_cons_of_mem _ (List.mem_cons_of_mem _ (List.mem_cons_self _ _)))
      (by decide)⟩

/-! Claim C9: the normalized directory invariant. -/

theorem hoist_eq_of_single {es : List Entry} {n : List Char} {cs : List Entry}
    (h : subdirs es = [Entry.dir n cs]) :
    hoistSingleSubdir es = filterFiles es ++ cs := by
  unfold hoistSingleSubdir
  rw [h]

theorem hoist_noop {es : List Entry}
    (h : subdirs es = [] ∨ 2 ≤ (subdirs es).length) :
    hoistSingleSubdir es = es := by
  rcases h with h | h
  · unfold hoistSingleSubdir
    rw [h]
  · cases hs : subdirs es with
    | nil => rw [hs] at h; simp at h
    | cons x t =>
      cases t with
      | nil => rw [hs] at h; simp at h
      | cons y t2 => cases x <;> (unfold hoistSingleSubdir; rw [hs])

theorem names_sublist_filter (p : Entry → Bool) (es : List Entry) :
    (names (es.filter p)).Sublist (names es) :=
  List.Sublist.map entryName (List.filter_sublist es)

theorem subdirs_eq_nil_of_files {l : List Entry}
    (h : ∀ e ∈ l, isDirE e = false) : subdirs l = [] := by
  simp only [subdirs]
  rw [List.filter_eq_nil_iff]
  intro a ha
  simp [h a ha]

theorem filterFiles_all_files (es : List Entry) :
    ∀ e ∈ filterFiles es, isDirE e = false := by
  intro e he
  have h := (List.mem_filter.mp he).2
  cases hd : isDirE e
  · rfl
  · rw [hd] at h
    exact absurd h (by decide)

theorem macosx_not_mem_removeMacosx (es : List Entry) :
    macosxL ∉ names (removeMacosx es) := by
  intro h
  obtain ⟨e, he, hname⟩ := List.mem_map.mp h
  have h2 := (List.mem_filter.mp he).2
  rw [decide_eq_true_eq] at h2
  exact h2 hname

theorem pth_name_ne_macosx (m : List Char) : m ++ pthMark ≠ macosxL := by
  intro h
  have h1 : (m ++ pthMark).reverse.head? = macosxL.reverse.head? := by rw [h]
  rw [List.reverse_append] at h1
  have h2 : pthMark.reverse = 'h' :: str "tp." := rfl
  rw [h2] at h1
  have h3 : (('h' :: str "tp.") ++ m.reverse).head? = some 'h' := rfl
  rw [h3] at h1
  exact absurd h1 (by decide)

theorem idx_name_ne_macosx (m : List Char) : m ++ idxMark ≠ macosxL := by
  intro h
  have h1 : (m ++ idxMark).reverse.head? = macosxL.reverse.head? := by rw [h]
  rw [List.reverse_append] at h1
  have h2 : idxMark.reverse = 'x' :: str "edni." := rfl
  rw [h2] at h1
  have h3 : (('x' :: str "edni.") ++ m.reverse).head? = some 'x' := rfl
  rw [h3] at h1
  exact absurd h1 (by decide)

theorem macosx_not_after_rename (m : List Char) (es : List Entry)
    (h : macosxL ∉ names es) :
    existsName macosxL (renameStep m es) = false := by
  cases hex : existsName macosxL (renameStep m es) with
  | false => rfl
  | true =>
    exfalso
    have hmem := existsName_iff.mp hex
    rcases renameLoop_names_bound m (names es) es macosxL hmem with h2 | h2 | h2
    · exact h h2
    · exact pth_name_ne_macosx m h2.symm
    · exact idx_name_ne_macosx m h2.symm

theorem filter_name_eq_nil {n : List Char} {es : List Entry}
    (h : n ∉ names es) : es.filter (fun e => decide (entryName e = n)) = [] := by
  rw [List.filter_eq_nil_iff]
  intro e he
  simp only [decide_eq_true_eq]
  intro hc
  exact h (hc ▸ List.mem_map_of_mem entryName he)

theorem countName_le_one {n : List Char} {es : List Entry}
    (hnd : (names es).Nodup) : countName n es ≤ 1 := by
  induction es with
  | nil => simp [countName]
  | cons e t ih =>
    simp only [names, List.map_cons, List.nodup_cons] at hnd
    rw [countName, List.filter_cons]
    by_cases hc : entryName e = n
    · rw [if_pos (by simpa using hc)]
      have hnil : t.filter (fun x => decide (entryName x = n)) = [] :=
        filter_name_eq_nil (by rw [← hc]; exact hnd.1)
      simp [hnil]
    · rw [if_neg (by simpa using hc)]
      exact ih hnd.2

/-- C9 (counterexample): an archive whose single wrapper folder contains a
nested platform metadata folder defeats the invariant: the metadata folder is
removed only before the hoist, so the hoisted copy survives normalization and
the final directory again consists of exactly one subdirectory. -/
theorem clean_invariant_counterexample :
    ¬ targetInvariant (str "mymodel")
      (clean_extracted_files
        [Entry.dir (str "wrapper") [Entry.dir (str "__MACOSX") []]]
        (str "mymodel")) := by
  unfold targetInvariant
  decide

/-- C9 (amended): after a run of the normalizer the invariant holds provided
the single wrapper subdirectory, when one is present after metadata removal,
contains only regular files with pairwise distinct names, none named
__MACOSX and none colliding with a remaining top level name; without that
proviso a directory nested inside the wrapper (for example a wrapped
__MACOSX folder) is hoisted to the top level and remains there. -/
theorem clean_extracted_files_invariant (es : List Entry) (m : List Char)
    (hnd : (names es).Nodup)
    (hw : ∀ n cs, subdirs (removeMacosx es) = [Entry.dir n cs] →
      (∀ e ∈ cs, isDirE e = false) ∧ (names cs).Nodup ∧
      (∀ nm ∈ names cs, nm ∉ names (removeMacosx es)) ∧
      (∀ nm ∈ names cs, nm ≠ macosxL)) :
    targetInvariant m (clean_extracted_files es m) := by
  have hnd1 : (names (removeMacosx es)).Nodup :=
    List.Nodup.sublist (names_sublist_filter _ es) hnd
  have hmac1 : macosxL ∉ names (removeMacosx es) := macosx_not_mem_removeMacosx es
  have key : (names (hoistSingleSubdir (removeMacosx es))).Nodup ∧
      macosxL ∉ names (hoistSingleSubdir (removeMacosx es)) ∧
      (subdirs (hoistSingleSubdir (removeMacosx es))).length ≠ 1 := by
    cases hs : subdirs (removeMacosx es) with
    | nil =>
      rw [hoist_noop (Or.inl hs)]
      refine ⟨hnd1, hmac1, ?_⟩
      rw [hs]
      decide
    | cons x t =>
      cases t with
      | nil =>
        cases x with
        | file nm =>
          exfalso
          have hx : Entry.file nm ∈ subdirs (removeMacosx es) := by
            rw [hs]; exact List.mem_singleton.mpr rfl
          have := (mem_of_mem_subdirs hx).2
          simp [isDirE] at this
        | dir n cs =>
          obtain ⟨hfiles, hcnd, hfresh, hnomac⟩ := hw n cs hs
          rw [hoist_eq_of_single hs]
          refine ⟨?_, ?_, ?_⟩
          · simp only [names, List.map_append]
            apply List.Nodup.append
            · exact List.Nodup.sublist (names_sublist_filter _ (removeMacosx es)) hnd1
            · exact hcnd
            · intro a ha hac
              exact hfresh a hac ((names_sublist_filter _ (removeMacosx es)).subset ha)
          · simp only [names, List.map_append]
            intro hmem
            rcases List.mem_append.mp hmem with h | h
            · exact hmac1 ((names_sublist_filter _ (removeMacosx es)).subset h)
            · exact hnomac macosxL h rfl
          · simp only [subdirs, List.filter_append]
            rw [show List.filter isDirE (filterFiles (removeMacosx es)) = [] from
              subdirs_eq_nil_of_files (filterFiles_all_files (removeMacosx es))]
            rw [show List.filter isDirE cs = [] from subdirs_eq_nil_of_files hfiles]
            decide
      | cons y t2 =>
        rw [hoist_noop (Or.inr (by
          rw [hs, List.length_cons, List.length_cons]; omega))]
        refine ⟨hnd1, hmac1, ?_⟩
        rw [hs, List.length_cons, List.length_cons]
        omega
  obtain ⟨hnd2, hmac2, hlen2⟩ := key
  refine ⟨?_, ?_, ?_, ?_⟩
  · exact countName_le_one (renameLoop_nodup m _ _ hnd2)
  · exact countName_le_one (renameLoop_nodup m _ _ hnd2)
  · exact macosx_not_after_rename m _ hmac2
  · rw [show clean_extracted_files es m =
        renameLoop m (names (hoistSingleSubdir (removeMacosx es)))
          (hoistSingleSubdir (removeMacosx es)) from rfl]
    rw [subdirs_length_renameLoop]
    exact hlen2

/-- Witness for C9: a wrapper holding exactly the two artifact files leads to
a directory satisfying the invariant. -/
theorem clean_extracted_files_invariant_witness :
    targetInvariant (str "mymodel")
      (clean_extracted_files
        [Entry.dir (str "wrapper")
          [Entry.file (str "a.pth"), Entry.file (str "b.index")]]
        (str "mymodel")) := by
  apply clean_extracted_files_invariant
  · decide
  · intro n cs h
    have h0 : subdirs (removeMacosx
        [Entry.dir (str "wrapper")
          [Entry.file (str "a.pth"), Entry.file (str "b.index")]]) =
        [Entry.dir (str "wrapper")
          [Entry.file (str "a.pth"), Entry.file (str "b.index")]] := rfl
    rw [h0] at h
    injection h with hh ht
    injection hh with hn hcs
    subst hn
    subst hcs
    decide

/-! Claim C8: the saved file name derivation. -/

theorem findSplit_cons (sep : List Char) (c : Char) (rest : List Char) :
    findSplit sep (c :: rest) =
      if startsWith sep (c :: rest) then some ([], List.drop (sep.length - 1) rest)
      else
        match findSplit sep rest with
        | some (pre, post) => some (c :: pre, post)
        | none => none := rfl

theorem findSplit_single_delim {c : Char} {a r : List Char} (h : c ∉ a) :
    findSplit [c] (a ++ c :: r) = some (a, r) := by
  induction a with
  | nil =>
    rw [List.nil_append, findSplit_cons]
    rw [if_pos (by simp [startsWith])]
    simp
  | cons x xs ih =>
    have hx : ¬ c = x := fun hc => h (hc ▸ List.mem_cons_self x xs)
    rw [List.cons_append, findSplit_cons]
    rw [if_neg (by simp [startsWith, hx])]
    rw [ih (fun hc => h (List.mem_cons_of_mem x hc))]

theorem findFilename_cons_neg {c : Char} {rest : List Char}
    (h : startsWith patL (c :: rest) = false) :
    findFilename (c :: rest) = findFilename rest := by
  simp [findFilename, h]

theorem findFilename_cons_pos {c : Char} {rest grp post2 : List Char}
    (h : startsWith patL (c :: rest) = true)
    (hf : findSplit quoteL (List.drop patL.length (c :: rest)) = some (grp, post2))
    (hne : grp ≠ []) :
    findFilename (c :: rest) = some grp := by
  simp [findFilename, h, hf, hne]

theorem startsWith_of_append_eq :
    ∀ (sep A B r : List Char), A ++ B = sep ++ r → sep.length ≤ A.length →
      startsWith sep A = true := by
  intro sep
  induction sep with
  | nil => intro A B r _ _; rfl
  | cons s sep' ih =>
    intro A B r h hl
    cases A with
    | nil => simp at hl
    | cons a A' =>
      simp only [List.cons_append] at h
      injection h with h1 h2
      subst h1
      simp [startsWith, ih A' B r h2 (by simpa using hl)]

theorem no_earlier_match {pre X : List Char} (hne : pre ≠ [])
    (hs : startsWith patL (pre ++ (patL ++ X)) = true) :
    containsSubstr patL (pre ++ patL.dropLast) = true := by
  obtain ⟨r, hr⟩ := startsWith_iff_exists.mp hs
  have hsplit : patL ++ X = patL.dropLast ++ ('"' :: X) := rfl
  have harr : (pre ++ patL.dropLast) ++ ('"' :: X) = patL ++ r := by
    rw [List.append_assoc, ← hsplit]
    exact hr
  have hlen : patL.length ≤ (pre ++ patL.dropLast).length := by
    rw [List.length_append, List.length_dropLast]
    have hp : patL.length = 10 := rfl
    rw [hp]
    cases pre with
    | nil => exact absurd rfl hne
    | cons p ps =>
      rw [List.length_cons]
      omega
  exact contains_of_startsWith (by decide)
    (startsWith_of_append_eq patL (pre ++ patL.dropLast) ('"' :: X) r harr hlen)

/-- Correctness of the quoted filename search: at the first position where the
pattern occurs (no occurrence starts earlier), followed by a nonempty quote
free group closed by a quote, the search returns exactly that group. -/
theorem findFilename_correct :
    ∀ (pre : List Char) {grp post : List Char},
      containsSubstr patL (pre ++ patL.dropLast) = false →
      grp ≠ [] → '"' ∉ grp →
      findFilename (pre ++ (patL ++ (grp ++ '"' :: post))) = some grp := by
  intro pre
  induction pre with
  | nil =>
    intro grp post _ hne hq
    rw [List.nil_append]
    rw [show patL ++ (grp ++ '"' :: post) =
        'f' :: (str "ilename=\"" ++ (grp ++ '"' :: post)) from rfl]
    have hsw : startsWith patL ('f' :: (str "ilename=\"" ++ (grp ++ '"' :: post))) = true :=
      startsWith_append patL (grp ++ '"' :: post)
    have hdrop : List.drop patL.length
        ('f' :: (str "ilename=\"" ++ (grp ++ '"' :: post))) = grp ++ '"' :: post := by
      rw [show ('f' :: (str "ilename=\"" ++ (grp ++ '"' :: post))) =
          patL ++ (grp ++ '"' :: post) from rfl]
      exact List.drop_left patL _
    have hf2 : findSplit quoteL (List.drop patL.length
        ('f' :: (str "ilename=\"" ++ (grp ++ '"' :: post)))) = some (grp, post) := by
      rw [hdrop]
      exact findSplit_single_delim hq
    exact findFilename_cons_pos hsw hf2 hne
  | cons x pre' ih =>
    intro grp post hno hne hq
    have hno2 : containsSubstr patL (pre' ++ patL.dropLast) = false := by
      cases hb : containsSubstr patL (pre' ++ patL.dropLast) with
      | false => rfl
      | true =>
        have h2 := contains_cons x hb
        rw [List.cons_append] at hno
        rw [h2] at hno
        exact absurd hno (by decide)
    have hsw : startsWith patL (x :: (pre' ++ (patL ++ (grp ++ '"' :: post)))) = false := by
      cases hb : startsWith patL (x :: (pre' ++ (patL ++ (grp ++ '"' :: post)))) with
      | false => rfl
      | true =>
        have h3 := no_earlier_match (show x :: pre' ≠ [] by simp) hb
        rw [h3] at hno
        exact absurd hno (by decide)
    rw [List.cons_append, findFilename_cons_neg hsw]
    exact ih hno2 hne hq

theorem mem_of_findSplit_single_none {c : Char} :
    ∀ {l : List Char}, findSplit [c] l = none → c ∉ l := by
  intro l
  induction l with
  | nil => intro _; simp
  | cons x t ih =>
    intro h
    simp only [findSplit] at h
    by_cases hs : startsWith [c] (x :: t) = true
    · rw [if_pos hs] at h
      exact absurd h (by simp)
    · rw [if_neg hs] at h
      have hcx : ¬ c = x := fun hcx => hs (by simp [startsWith, hcx])
      cases hf : findSplit [c] t with
      | some p =>
        obtain ⟨a, b⟩ := p
        rw [hf] at h
        exact absurd h (by simp)
      | none =>
        intro hmem
        rcases List.mem_cons.mp hmem with rfl | hm2
        · exact hcx rfl
        · exact ih hf hm2

theorem not_mem_pre_findSplit_single {c : Char} :
    ∀ {l a b : List Char}, findSplit [c] l = some (a, b) → c ∉ a := by
  intro l
  induction l with
  | nil => intro a b h; simp [findSplit] at h
  | cons x t ih =>
    intro a b h
    simp only [findSplit] at h
    by_cases hs : startsWith [c] (x :: t) = true
    · rw [if_pos hs] at h
      simp only [Option.some.injEq, Prod.mk.injEq] at h
      rw [← h.1]
      simp
    · rw [if_neg hs] at h
      have hcx : ¬ c = x := fun hcx => hs (by simp [startsWith, hcx])
      cases hf : findSplit [c] t with
      | none =>
        rw [hf] at h
        exact absurd h (by simp)
      | some p =>
        obtain ⟨a2, b2⟩ := p
        rw [hf] at h
        simp only [Option.some.injEq, Prod.mk.injEq] at h
        rw [← h.1]
        intro hmem
        rcases List.mem_cons.mp hmem with rfl | hm2
        · exact hcx rfl
        · exact ih hf hm2

theorem slash_not_mem_replaceAllFuel :
    ∀ (f : Nat) (l : List Char), l.length ≤ f →
      '/' ∉ replaceAllFuel osSepL underscoreL f l := by
  intro f
  induction f with
  | zero =>
    intro l hl
    have h0 : l = [] := List.length_eq_zero.mp (Nat.le_zero.mp hl)
    subst h0
    simp [replaceAllFuel]
  | succ n ih =>
    intro l hl
    simp only [replaceAllFuel]
    cases hf : findSplit osSepL l with
    | none => exact mem_of_findSplit_single_none hf
    | some p =>
      obtain ⟨a, b⟩ := p
      intro hmem
      rcases List.mem_append.mp hmem with hm | hm
      · rcases List.mem_append.mp hm with hm2 | hm2
        · exact not_mem_pre_findSplit_single hf hm2
        · exact absurd hm2 (by decide)
      · have hlen := findSplit_length (show osSepL ≠ [] by decide) hf
        exact ih b (by omega) hm

/-- C8 (counterexample): the source percent decodes the header before the
pattern match, so a quoted filename containing the escape sequence of a slash
is saved with the decoded slash replaced by an underscore, while the claim,
which does not mention the decoding step, predicts the raw quoted filename. -/
theorem save_response_content_counterexample :
    savedFileName (str "attachment; filename=\"my%2Fmodel.zip\"") =
      str "my_model.zip" ∧
    specSavedFileName (str "attachment; filename=\"my%2Fmodel.zip\"") =
      str "my%2Fmodel.zip" ∧
    savedFileName (str "attachment; filename=\"my%2Fmodel.zip\"") ≠
      specSavedFileName (str "attachment; filename=\"my%2Fmodel.zip\"") := by
  refine ⟨by decide, by decide, by decide⟩

/-- C8 (amended): the header value is first percent decoded; when the decoded
value contains the quoted filename pattern (at its first occurrence, followed
by a nonempty quote free group), the saved name is that group with every path
separator replaced by an underscore; when the pattern does not match, the
fixed placeholder is used; and in every case the saved name contains no path
separator, so the file lands inside the staging directory. -/
theorem save_response_content_amended (h pre grp post : List Char)
    (hdec : unquoteChars h = pre ++ (patL ++ (grp ++ '"' :: post)))
    (hno : containsSubstr patL (pre ++ patL.dropLast) = false)
    (hne : grp ≠ []) (hq : '"' ∉ grp) :
    savedFileName h = replaceAll osSepL underscoreL grp ∧
    (∀ h2, findFilename (unquoteChars h2) = none →
      savedFileName h2 = str "downloaded_file") ∧
    (∀ h2 c, c ∈ savedFileName h2 → c ≠ '/') := by
  refine ⟨?_, ?_, ?_⟩
  · unfold savedFileName
    rw [hdec, findFilename_correct pre hno hne hq]
  · intro h2 hf
    unfold savedFileName
    rw [hf]
  · intro h2 c hc hEq
    subst hEq
    cases hf : findFilename (unquoteChars h2) with
    | none =>
      have hsv : savedFileName h2 = str "downloaded_file" := by
        unfold savedFileName
        rw [hf]
      rw [hsv] at hc
      exact absurd hc (by decide)
    | some grp2 =>
      have hsv : savedFileName h2 = replaceAll osSepL underscoreL grp2 := by
        unfold savedFileName
        rw [hf]
      rw [hsv] at hc
      exact slash_not_mem_replaceAllFuel grp2.length grp2 (le_refl _) hc

/-- Witness for C8: the spec example header with a path separator inside the
quoted filename. -/
theorem save_response_content_amended_witness :
    savedFileName (str "attachment; filename=\"my/model.zip\"") =
      str "my_model.zip" := by
  have h := (save_response_content_amended
    (str "attachment; filename=\"my/model.zip\"")
    (str "attachment; ") (str "my/model.zip") []
    (by decide) (by decide) (by decide) (by decide)).1
  rw [h]
  decide

end ModelDownload
